import Mathlib

/-!
Verification development for the feature-repository declarations in
`feature_store/feature_repo/example_repo.py` and for the retrieval-and-
transformation engine those declarations are served by, as specified in the
design document.  Machine floats are modelled as rationals, timestamps as
integers (e.g. epoch seconds), and `np.log` as an arbitrary pure function
parameter, so every definition is executable.
-/

namespace FeatureStore

/-- Primitive feature types used by the repository (`Float32`, `Float64`,
`Int64` from `feast.types`). -/
inductive FType where
  | float32
  | float64
  | int64
deriving DecidableEq

/-- A feature value together with its runtime type tag.  Floats are modelled
as rationals; `Int64` as an integer. -/
inductive FValue where
  | f32 : ℚ → FValue
  | f64 : ℚ → FValue
  | i64 : ℤ → FValue
deriving DecidableEq

/-- The declared type of a value. -/
def FValue.dtype : FValue → FType
  | .f32 _ => .float32
  | .f64 _ => .float64
  | .i64 _ => .int64

/-- Numeric content of a value, modelling pandas/numpy numeric coercion of
`float32`/`float64`/`int64` operands into a common numeric domain. -/
def FValue.toQ : FValue → ℚ
  | .f32 q => q
  | .f64 q => q
  | .i64 z => (z : ℚ)

/-- `Field` declaration: name, dtype, optional description. -/
structure FieldDecl where
  name : String
  dtype : FType
  description : Option String
deriving DecidableEq

/-- `Entity` declaration: name and join keys. -/
structure EntityDecl where
  name : String
  join_keys : List String
deriving DecidableEq

/-- A batch source declaration (`FileSource`): its name and the names of the
event-timestamp and created-timestamp columns used for ordering.  The parquet
path is environment-dependent and not part of the model. -/
structure SourceDecl where
  name : String
  timestamp_field : String
  created_timestamp_column : String
deriving DecidableEq

/-- A push source declaration (`PushSource`): name and its batch source. -/
structure PushSourceDecl where
  name : String
  batch_source : String
deriving DecidableEq

/-- `FeatureView` declaration: name, entities, TTL in seconds, schema,
online flag, name of its (batch or push) source, tags. -/
structure FeatureViewDecl where
  name : String
  entities : List EntityDecl
  ttlSeconds : ℤ
  schema : List FieldDecl
  online : Bool
  sourceName : String
  tags : List (String × String)
deriving DecidableEq

/-- On-demand feature view metadata from the `@on_demand_feature_view`
decorator: name, source view names, declared output schema. -/
structure OnDemandDecl where
  name : String
  sources : List String
  schema : List FieldDecl
deriving DecidableEq

/-- `timedelta(days=1)` in seconds. -/
def secondsPerDay : ℤ := 86400

/-- `driver = Entity(name="driver", join_keys=["driver_id"])`. -/
def driver : EntityDecl :=
  ⟨"driver", ["driver_id"]⟩

/-- `driver_stats_source`, the hourly-stats `FileSource`. -/
def driver_stats_source : SourceDecl :=
  ⟨"driver_hourly_stats_source", "event_timestamp", "created"⟩

/-- Feature view `driver_quality_stats` (TTL one day, two float32 fields). -/
def driver_quality_fv : FeatureViewDecl :=
  ⟨"driver_quality_stats", [driver], secondsPerDay,
    [⟨"conv_rate", .float32, some "Коэффициент конверсии"⟩,
     ⟨"acc_rate", .float32, some "Коэффициент точности"⟩],
    true, driver_stats_source.name, [("group", "driver_quality")]⟩

/-- Feature view `driver_activity_stats` (TTL one day, one int64 field). -/
def driver_activity_fv : FeatureViewDecl :=
  ⟨"driver_activity_stats", [driver], secondsPerDay,
    [⟨"avg_daily_trips", .int64, some "Среднее число поездок в день"⟩],
    true, driver_stats_source.name, [("group", "driver_activity")]⟩

/-- `driver_stats_push_source = PushSource(... batch_source=driver_stats_source)`. -/
def driver_stats_push_source : PushSourceDecl :=
  ⟨"driver_stats_push_source", driver_stats_source.name⟩

/-- Feature view `driver_quality_stats_fresh`, identical to
`driver_quality_stats` except that its source is the push source. -/
def driver_quality_fresh_fv : FeatureViewDecl :=
  ⟨"driver_quality_stats_fresh", [driver], secondsPerDay,
    [⟨"conv_rate", .float32, some "Коэффициент конверсии"⟩,
     ⟨"acc_rate", .float32, some "Коэффициент точности"⟩],
    true, driver_stats_push_source.name, [("group", "driver_quality")]⟩

/-- Feature view `driver_activity_stats_fresh`, sourced from the push source. -/
def driver_activity_fresh_fv : FeatureViewDecl :=
  ⟨"driver_activity_stats_fresh", [driver], secondsPerDay,
    [⟨"avg_daily_trips", .int64, some "Среднее число поездок в день"⟩],
    true, driver_stats_push_source.name, [("group", "driver_activity")]⟩

/-- All feature views declared in the repository. -/
def allFeatureViews : List FeatureViewDecl :=
  [driver_quality_fv, driver_activity_fv, driver_quality_fresh_fv,
   driver_activity_fresh_fv]

/-- Metadata of the `driver_efficiency_metrics` on-demand feature view. -/
def driver_efficiency_metrics_decl : OnDemandDecl :=
  ⟨"driver_efficiency_metrics",
   [driver_quality_fv.name, driver_activity_fv.name],
   [⟨"efficiency_index", .float64, none⟩,
    ⟨"risk_score", .float64, none⟩]⟩

/-- Metadata of the `driver_efficiency_metrics_fresh` on-demand view. -/
def driver_efficiency_metrics_fresh_decl : OnDemandDecl :=
  ⟨"driver_efficiency_metrics_fresh",
   [driver_quality_fresh_fv.name, driver_activity_fresh_fv.name],
   [⟨"efficiency_index", .float64, none⟩,
    ⟨"risk_score", .float64, none⟩]⟩

/-- A row of named, typed values: the shallow embedding of one row of a
pandas dataframe/request. -/
abbrev DataRow := List (String × FValue)

/-- Column lookup in a row (pandas `inputs[col]`). -/
def getCol (row : DataRow) (col : String) : Option FValue :=
  (row.find? (fun p => p.fst == col)).map Prod.snd

/-- The transformation body of `driver_efficiency_metrics`:
`efficiency_index = conv_rate + avg_daily_trips` and
`risk_score = 1 - acc_rate * log(1 + avg_daily_trips)`.
`npLog` is the model of `np.log` as a pure function; the output columns are
`Float64`, modelling the float64 results of the pandas expressions.  A row
missing one of the three input columns has no output (a `KeyError` in
pandas). -/
def driver_efficiency_metrics (npLog : ℚ → ℚ) (inputs : DataRow) :
    Option DataRow :=
  match getCol inputs "conv_rate", getCol inputs "acc_rate",
      getCol inputs "avg_daily_trips" with
  | some conv, some acc, some trips =>
      some [("efficiency_index", .f64 (conv.toQ + trips.toQ)),
            ("risk_score", .f64 (1 - acc.toQ * npLog (1 + trips.toQ)))]
  | _, _, _ => none

/-- The transformation body of `driver_efficiency_metrics_fresh`, which is
textually the same code as `driver_efficiency_metrics` over the fresh views. -/
def driver_efficiency_metrics_fresh (npLog : ℚ → ℚ) (inputs : DataRow) :
    Option DataRow :=
  match getCol inputs "conv_rate", getCol inputs "acc_rate",
      getCol inputs "avg_daily_trips" with
  | some conv, some acc, some trips =>
      some [("efficiency_index", .f64 (conv.toQ + trips.toQ)),
            ("risk_score", .f64 (1 - acc.toQ * npLog (1 + trips.toQ)))]
  | _, _, _ => none

/-- Modelled from the spec: the On-Demand Executor's offline path applies a
transformation row-wise over the joined table (§4.5, §4.6); the executor
itself is not part of the repository source. -/
def offlineApply (f : DataRow → Option DataRow) (table : List DataRow) :
    List (Option DataRow) :=
  table.map f

/-- Modelled from the spec: the online serving path applies the same
transformation to the single resolved row of one request (§4.5, §4.6). -/
def onlineServe (f : DataRow → Option DataRow) (request : DataRow) :
    Option DataRow :=
  f request

/-- Modelled from the spec: one historical row of a feature view's batch
source (§4.2) — entity key value, event timestamp, created timestamp, and the
feature values in schema order. -/
structure FeatureRow where
  key : ℤ
  eventTs : ℤ
  createdTs : ℤ
  payload : List ℚ
deriving DecidableEq

/-- Modelled from the spec: steps 1–2 of the offline join algorithm (§4.2) —
among the rows matching the spine key, keep those with
`event_timestamp ≤ spine event_timestamp`, and, when `ttl > 0`, discard those
with `event_timestamp < spine event_timestamp − ttl`. -/
def candidateRows (ttl : ℤ) (key : ℤ) (spineTs : ℤ)
    (rows : List FeatureRow) : List FeatureRow :=
  rows.filter (fun r =>
    r.key == key && decide (r.eventTs ≤ spineTs) &&
      (decide (ttl ≤ 0) || decide (spineTs - ttl ≤ r.eventTs)))

/-- Strict lexicographic comparison of payloads, used only to make the
selection among fully tied candidate rows deterministic. -/
def qListLt : List ℚ → List ℚ → Bool
  | [], [] => false
  | [], _ :: _ => true
  | _ :: _, [] => false
  | a :: as, b :: bs =>
      if a < b then true
      else if b < a then false
      else qListLt as bs

/-- The sort key of a candidate row, most significant first:
`event_timestamp`, then `created_timestamp`, then the remaining components
that make the order total. -/
def rowKeyList (r : FeatureRow) : List ℚ :=
  (r.eventTs : ℚ) :: (r.createdTs : ℚ) :: (r.key : ℚ) :: r.payload

/-- Modelled from the spec: the strict ordering of candidate rows used by
step 3 of the join (§4.2) — primary key `event_timestamp`, tie-break
`created_timestamp` (latest write wins), further ties broken deterministically
by entity key and payload, as the spec requires a deterministic
implementation-defined choice among equals. -/
def rowLtB (a b : FeatureRow) : Bool :=
  qListLt (rowKeyList a) (rowKeyList b)

/-- One step of maximum selection: keep the better of the accumulator and
the next row. -/
def pick (acc : Option FeatureRow) (r : FeatureRow) : Option FeatureRow :=
  match acc with
  | none => some r
  | some a => if rowLtB a r then some r else some a

/-- Modelled from the spec: step 3 of the join (§4.2) — select the candidate
row with maximum `event_timestamp`, ties broken by maximum
`created_timestamp`; `none` when no candidate remains (step 4 then emits
NULL). -/
def selectRow (rows : List FeatureRow) : Option FeatureRow :=
  rows.foldl pick none

/-- Modelled from the spec: the full per-view, per-spine-row join step
(§4.2). -/
def joinOne (ttl : ℤ) (key : ℤ) (spineTs : ℤ) (rows : List FeatureRow) :
    Option FeatureRow :=
  selectRow (candidateRows ttl key spineTs rows)

/-- Key of an online record: (feature view name, entity join key value). -/
abbrev ViewKey := String × ℤ

/-- Modelled from the spec: one online record (§3) — field values and the
event timestamp of the write that produced them. -/
structure OnlineRecord where
  fields : DataRow
  eventTs : ℤ
deriving DecidableEq

/-- Modelled from the spec: the Online Store (§4.3) — exactly one live
record per key. -/
def OnlineStore := ViewKey → Option OnlineRecord

/-- The monotonic check-and-set on a single record: a write lands only if
its event timestamp is ≥ the currently stored one (§4.3). -/
def putRecord (current : Option OnlineRecord) (fields : DataRow) (ts : ℤ) :
    Option OnlineRecord :=
  match current with
  | none => some ⟨fields, ts⟩
  | some r => if r.eventTs ≤ ts then some ⟨fields, ts⟩ else some r

/-- Modelled from the spec: `put(view, entityKey, fields, eventTimestamp)`
(§4.3), updating the record for that key only if the new event timestamp is
≥ the stored one. -/
def put (s : OnlineStore) (view : String) (key : ℤ) (fields : DataRow)
    (ts : ℤ) : OnlineStore :=
  fun q => if q = (view, key) then putRecord (s (view, key)) fields ts else s q

/-- Modelled from the spec: `get(view, entityKey)` (§4.3). -/
def get (s : OnlineStore) (view : String) (key : ℤ) : Option OnlineRecord :=
  s (view, key)

/-- One `put` operation, for reasoning about sequences of writes. -/
structure PutOp where
  view : String
  key : ℤ
  fields : DataRow
  ts : ℤ

/-- Applies a sequence of `put`s to the store. -/
def applyPuts (s : OnlineStore) (ops : List PutOp) : OnlineStore :=
  ops.foldl (fun st op => put st op.view op.key op.fields op.ts) s

/-- Modelled from the spec: one pushed row (§4.4) — entity key, event
timestamp, field values. -/
structure PushRow where
  key : ℤ
  eventTs : ℤ
  fields : DataRow
deriving DecidableEq

/-- Observable state of the Push Ingestor's two destinations: the online
store and the durable batch sink (§4.4). -/
structure IngestState where
  online : OnlineStore
  batchSink : List PushRow

/-- The feature views bound to a push source: those whose source is the push
source (in the repository, the two `_fresh` views). -/
def boundViews (src : PushSourceDecl) (views : List FeatureViewDecl) :
    List String :=
  (views.filter (fun v => v.sourceName == src.name)).map (fun v => v.name)

/-- Modelled from the spec: `push(pushSourceName, rows)` for a single row
(§4.4) — write to the Online Store per §4.3's policy for each bound view and,
when a durable batch sink is configured, append the row there. -/
def pushRow (srcViews : List String) (hasBatchSink : Bool)
    (st : IngestState) (row : PushRow) : IngestState :=
  ⟨srcViews.foldl (fun s v => put s v row.key row.fields row.eventTs)
      st.online,
   if hasBatchSink then st.batchSink ++ [row] else st.batchSink⟩

/-- The runtime schema of an output row: its field names and value types in
order. -/
def rowSchema (row : DataRow) : List (String × FType) :=
  row.map (fun p => (p.fst, p.snd.dtype))

/-- The declared schema of an on-demand view as (name, dtype) pairs. -/
def declaredSchema (decl : OnDemandDecl) : List (String × FType) :=
  decl.schema.map (fun f => (f.name, f.dtype))

/-- Result of one on-demand execution (§4.5, §7). -/
inductive ExecResult where
  | ok : DataRow → ExecResult
  | missingInput : ExecResult
  | schemaViolation : ExecResult
deriving DecidableEq

/-- Modelled from the spec: the On-Demand Executor (§4.5) — invoke the pure
transformation and validate that its output row exactly matches the declared
schema (field set and types); a missing required input fails with
`MissingInputError`, a schema mismatch with `SchemaViolationError`. -/
def runOnDemand (decl : OnDemandDecl)
    (transform : DataRow → Option DataRow) (inputs : DataRow) : ExecResult :=
  match transform inputs with
  | none => .missingInput
  | some out =>
      if rowSchema out = declaredSchema decl then .ok out
      else .schemaViolation

/-- A feature reference inside a `FeatureService`: a view restricted to a
field subset (`driver_quality_fv[["conv_rate"]]`), an entire view, or an
entire on-demand view. -/
inductive FeatureRef where
  | subset : FeatureViewDecl → List String → FeatureRef
  | full : FeatureViewDecl → FeatureRef
  | onDemand : OnDemandDecl → FeatureRef

/-- `FeatureService` declaration: name, ordered feature references, and
whether a logging configuration is attached. -/
structure FeatureServiceDecl where
  name : String
  features : List FeatureRef
  hasLoggingConfig : Bool

/-- `driver_activity_v1`: subset of the quality view plus the on-demand
view, with a file logging destination configured. -/
def driver_activity_v1 : FeatureServiceDecl :=
  ⟨"driver_activity_v1",
   [.subset driver_quality_fv ["conv_rate"],
    .onDemand driver_efficiency_metrics_decl],
   true⟩

/-- `driver_activity_v2`: both batch views plus the on-demand view. -/
def driver_activity_v2 : FeatureServiceDecl :=
  ⟨"driver_activity_v2",
   [.full driver_quality_fv, .full driver_activity_fv,
    .onDemand driver_efficiency_metrics_decl],
   false⟩

/-- `driver_activity_v3`: the fresh views plus the fresh on-demand view. -/
def driver_activity_v3 : FeatureServiceDecl :=
  ⟨"driver_activity_v3",
   [.full driver_quality_fresh_fv, .full driver_activity_fresh_fv,
    .onDemand driver_efficiency_metrics_fresh_decl],
   false⟩

/-- The columns a single feature reference contributes, in declared order. -/
def refColumns : FeatureRef → List String
  | .subset _ cols => cols
  | .full v => v.schema.map (fun f => f.name)
  | .onDemand d => d.schema.map (fun f => f.name)

/-- Modelled from the spec: the Feature Service Composer's final column
projection (§4.6) — exactly the fields implied by the service's feature
references, in declared order. -/
def serviceColumns (svc : FeatureServiceDecl) : List String :=
  (svc.features.map refColumns).flatten

/-- Modelled from the spec: the Composer's assembled response (§4.6) — one
value per projected column, in declared order. -/
def composeResponse (svc : FeatureServiceDecl) (vals : String → FValue) :
    DataRow :=
  (serviceColumns svc).map (fun c => (c, vals c))

/-! ### Helper lemmas on the offline join -/

theorem mem_candidateRows {ttl key spineTs : ℤ} {rows : List FeatureRow}
    {r : FeatureRow} :
    r ∈ candidateRows ttl key spineTs rows ↔
      r ∈ rows ∧ r.key = key ∧ r.eventTs ≤ spineTs ∧
        (0 < ttl → spineTs - ttl ≤ r.eventTs) := by
  simp only [candidateRows, List.mem_filter, Bool.and_eq_true,
    Bool.or_eq_true, decide_eq_true_eq, beq_iff_eq, and_assoc]
  constructor
  · rintro ⟨hmem, hk, he, httl⟩
    exact ⟨hmem, hk, he, by omega⟩
  · rintro ⟨hmem, hk, he, httl⟩
    refine ⟨hmem, hk, he, ?_⟩
    by_cases h : 0 < ttl
    · exact Or.inr (httl h)
    · exact Or.inl (by omega)

theorem qListLt_asymm (xs : List ℚ) :
    ∀ ys, qListLt xs ys = true → qListLt ys xs = false := by
  induction xs with
  | nil =>
      intro ys h
      cases ys with
      | nil => simp [qListLt] at h
      | cons y ys => simp [qListLt]
  | cons x xs ih =>
      intro ys h
      cases ys with
      | nil => simp [qListLt] at h
      | cons y ys =>
          simp only [qListLt] at h ⊢
          rcases lt_trichotomy x y with h1 | h1 | h1
          · rw [if_neg (lt_asymm h1), if_pos h1]
          · subst h1
            rw [if_neg (lt_irrefl x), if_neg (lt_irrefl x)] at h ⊢
            exact ih ys h
          · rw [if_neg (lt_asymm h1), if_pos h1] at h
            exact absurd h (by simp)

theorem qListLt_trans (xs : List ℚ) :
    ∀ ys zs, qListLt xs ys = true → qListLt ys zs = true →
      qListLt xs zs = true := by
  induction xs with
  | nil =>
      intro ys zs h1 h2
      cases ys with
      | nil => simp [qListLt] at h1
      | cons y ys =>
          cases zs with
          | nil => simp [qListLt] at h2
          | cons z zs => simp [qListLt]
  | cons x xs ih =>
      intro ys zs h1 h2
      cases ys with
      | nil => simp [qListLt] at h1
      | cons y ys =>
          cases zs with
          | nil => simp [qListLt] at h2
          | cons z zs =>
              simp only [qListLt] at h1 h2 ⊢
              rcases lt_trichotomy x y with hxy | hxy | hxy
              · rcases lt_trichotomy y z with hyz | hyz | hyz
                · rw [if_pos (lt_trans hxy hyz)]
                · subst hyz; rw [if_pos hxy]
                · rw [if_neg (lt_asymm hyz), if_pos hyz] at h2
                  exact absurd h2 (by simp)
              · subst hxy
                rcases lt_trichotomy x z with hyz | hyz | hyz
                · rw [if_pos hyz]
                · subst hyz
                  rw [if_neg (lt_irrefl x)] at h1 h2 ⊢
                  rw [if_neg (lt_irrefl x)] at h1 h2 ⊢
                  exact ih ys zs h1 h2
                · rw [if_neg (lt_asymm hyz), if_pos hyz] at h2
                  exact absurd h2 (by simp)
              · rw [if_neg (lt_asymm hxy), if_pos hxy] at h1
                exact absurd h1 (by simp)

theorem qListLt_conn (xs : List ℚ) :
    ∀ ys, qListLt xs ys = false → qListLt ys xs = false → xs = ys := by
  induction xs with
  | nil =>
      intro ys h1 h2
      cases ys with
      | nil => rfl
      | cons y ys => simp [qListLt] at h1
  | cons x xs ih =>
      intro ys h1 h2
      cases ys with
      | nil => simp [qListLt] at h2
      | cons y ys =>
          simp only [qListLt] at h1 h2
          rcases lt_trichotomy x y with hxy | hxy | hxy
          · rw [if_pos hxy] at h1
            exact absurd h1 (by simp)
          · subst hxy
            rw [if_neg (lt_irrefl x), if_neg (lt_irrefl x)] at h1 h2
            rw [ih ys h1 h2]
          · rw [if_neg (lt_asymm hxy), if_pos hxy] at h2
            exact absurd h2 (by simp)

theorem rowKeyList_inj {a b : FeatureRow} (h : rowKeyList a = rowKeyList b) :
    a = b := by
  cases a with
  | mk ak ae ac ap =>
      cases b with
      | mk bk be bc bp =>
          simp only [rowKeyList, List.cons.injEq] at h
          obtain ⟨h1, h2, h3, h4⟩ := h
          simp only [FeatureRow.mk.injEq]
          exact ⟨by exact_mod_cast h3, by exact_mod_cast h1,
            by exact_mod_cast h2, h4⟩

theorem rowLtB_asymm {a b : FeatureRow} (h : rowLtB a b = true) :
    rowLtB b a = false :=
  qListLt_asymm _ _ h

theorem rowLtB_trans {a b c : FeatureRow} (h1 : rowLtB a b = true)
    (h2 : rowLtB b c = true) : rowLtB a c = true :=
  qListLt_trans _ _ _ h1 h2

theorem rowLtB_conn {a b : FeatureRow} (h1 : rowLtB a b = false)
    (h2 : rowLtB b a = false) : a = b :=
  rowKeyList_inj (qListLt_conn _ _ h1 h2)

theorem rowLtB_irrefl (a : FeatureRow) : rowLtB a a = false := by
  by_cases h : rowLtB a a = true
  · have h2 := rowLtB_asymm h
    rw [h] at h2
    exact absurd h2 (by simp)
  · simpa using h

theorem pick_none (r : FeatureRow) : pick none r = some r := rfl

theorem pick_some (a r : FeatureRow) :
    pick (some a) r = if rowLtB a r then some r else some a := rfl

theorem pick_swap (a b : FeatureRow) :
    pick (pick none a) b = pick (pick none b) a := by
  simp only [pick_none, pick_some]
  by_cases hab : rowLtB a b = true
  · rw [if_pos hab, if_neg (by simp [rowLtB_asymm hab])]
  · by_cases hba : rowLtB b a = true
    · rw [if_neg (by simpa using hab), if_pos hba]
    · have hab2 : rowLtB a b = false := by simpa using hab
      have hba2 : rowLtB b a = false := by simpa using hba
      rw [rowLtB_conn hab2 hba2]

theorem pick_rightComm (o : Option FeatureRow) (a b : FeatureRow) :
    pick (pick o a) b = pick (pick o b) a := by
  cases o with
  | none => exact pick_swap a b
  | some c =>
      have hswap := pick_swap a b
      simp only [pick_none, pick_some] at hswap
      simp only [pick_some]
      by_cases hca : rowLtB c a = true <;> by_cases hcb : rowLtB c b = true
      · rw [if_pos hca, if_pos hcb]
        simp only [pick_some]
        exact hswap
      · have hcb2 : rowLtB c b = false := by simpa using hcb
        rw [if_pos hca, if_neg hcb]
        simp only [pick_some]
        have hab : rowLtB a b = false := by
          by_cases h : rowLtB a b = true
          · rw [rowLtB_trans hca h] at hcb2
            exact absurd hcb2 (by simp)
          · simpa using h
        rw [if_neg (by simp [hab]), if_pos hca]
      · have hca2 : rowLtB c a = false := by simpa using hca
        rw [if_neg hca, if_pos hcb]
        simp only [pick_some]
        have hba : rowLtB b a = false := by
          by_cases h : rowLtB b a = true
          · rw [rowLtB_trans hcb h] at hca2
            exact absurd hca2 (by simp)
          · simpa using h
        rw [if_pos hcb, if_neg (by simp [hba])]
      · rw [if_neg hca, if_neg hcb]
        simp only [pick_some]
        rw [if_neg hca, if_neg hcb]

theorem foldl_pick_mem (l : List FeatureRow) :
    ∀ (o : Option FeatureRow) (r : FeatureRow),
      List.foldl pick o l = some r → o = some r ∨ r ∈ l := by
  induction l with
  | nil => intro o r h; exact Or.inl h
  | cons a tl ih =>
      intro o r h
      rcases ih (pick o a) r h with h1 | h1
      · cases o with
        | none =>
            simp only [pick_none, Option.some.injEq] at h1
            subst h1
            exact Or.inr (List.mem_cons_self a tl)
        | some c =>
            simp only [pick_some] at h1
            by_cases hca : rowLtB c a = true
            · rw [if_pos hca] at h1
              simp only [Option.some.injEq] at h1
              subst h1
              exact Or.inr (List.mem_cons_self a tl)
            · rw [if_neg hca] at h1
              exact Or.inl h1
      · exact Or.inr (List.mem_cons_of_mem a h1)

theorem foldl_pick_max (l : List FeatureRow) :
    ∀ (o : Option FeatureRow) (r : FeatureRow),
      List.foldl pick o l = some r →
        (∀ a, o = some a → rowLtB r a = false) ∧
          ∀ s ∈ l, rowLtB r s = false := by
  induction l with
  | nil =>
      intro o r h
      refine ⟨fun a ha => ?_, by simp⟩
      simp only [List.foldl_nil] at h
      rw [h] at ha
      simp only [Option.some.injEq] at ha
      subst ha
      exact rowLtB_irrefl r
  | cons a tl ih =>
      intro o r h
      obtain ⟨ihFirst, ihRest⟩ := ih (pick o a) r h
      have hra : rowLtB r a = false := by
        cases o with
        | none => exact ihFirst a rfl
        | some c =>
            by_cases hca : rowLtB c a = true
            · exact ihFirst a (by simp [pick_some, hca])
            · have hca2 : rowLtB c a = false := by simpa using hca
              have hrc : rowLtB r c = false :=
                ihFirst c (by simp [pick_some, hca2])
              by_cases hr : rowLtB r a = true
              · by_cases hcr : rowLtB c r = true
                · rw [rowLtB_trans hcr hr] at hca2
                  exact absurd hca2 (by simp)
                · have hcr2 : rowLtB c r = false := by simpa using hcr
                  rw [rowLtB_conn hrc hcr2] at hr
                  rw [hr] at hca2
                  exact absurd hca2 (by simp)
              · simpa using hr
      refine ⟨fun x hx => ?_, fun s hs => ?_⟩
      · subst hx
        by_cases hxa : rowLtB x a = true
        · by_cases hrx : rowLtB r x = true
          · rw [rowLtB_trans hrx hxa] at hra
            exact absurd hra (by simp)
          · simpa using hrx
        · have hxa2 : rowLtB x a = false := by simpa using hxa
          exact ihFirst x (by simp [pick_some, hxa2])
      · rcases List.mem_cons.mp hs with rfl | hs2
        · exact hra
        · exact ihRest s hs2

theorem selectRow_mem {l : List FeatureRow} {r : FeatureRow}
    (h : selectRow l = some r) : r ∈ l := by
  rcases foldl_pick_mem l none r h with h1 | h1
  · exact absurd h1 (by simp)
  · exact h1

theorem selectRow_max {l : List FeatureRow} {r : FeatureRow}
    (h : selectRow l = some r) : ∀ s ∈ l, rowLtB r s = false :=
  (foldl_pick_max l none r h).2

theorem selectRow_perm {l1 l2 : List FeatureRow} (p : List.Perm l1 l2) :
    selectRow l1 = selectRow l2 := by
  unfold selectRow
  haveI : RightCommutative pick := ⟨pick_rightComm⟩
  exact p.foldl_eq none

theorem rowLtB_false_eventTs {r s : FeatureRow} (h : rowLtB r s = false) :
    s.eventTs ≤ r.eventTs := by
  simp only [rowLtB, rowKeyList, qListLt] at h
  by_cases h1 : (r.eventTs : ℚ) < (s.eventTs : ℚ)
  · rw [if_pos h1] at h
    exact absurd h (by simp)
  · have : ¬ (r.eventTs < s.eventTs) := by exact_mod_cast h1
    omega

theorem rowLtB_false_createdTs {r s : FeatureRow} (h : rowLtB r s = false)
    (he : s.eventTs = r.eventTs) : s.createdTs ≤ r.createdTs := by
  simp only [rowLtB, rowKeyList, qListLt, he] at h
  rw [if_neg (lt_irrefl _), if_neg (lt_irrefl _)] at h
  by_cases h1 : (r.createdTs : ℚ) < (s.createdTs : ℚ)
  · rw [if_pos h1] at h
    exact absurd h (by simp)
  · have : ¬ (r.createdTs < s.createdTs) := by exact_mod_cast h1
    omega

/-! ### Helper lemmas on the online store and push ingestor -/

theorem put_apply (s : OnlineStore) (view : String) (key : ℤ)
    (fields : DataRow) (ts : ℤ) (q : ViewKey) :
    put s view key fields ts q =
      if q = (view, key) then putRecord (s (view, key)) fields ts else s q :=
  rfl

theorem putRecord_none (fields : DataRow) (ts : ℤ) :
    putRecord none fields ts = some ⟨fields, ts⟩ :=
  rfl

theorem putRecord_some (r : OnlineRecord) (fields : DataRow) (ts : ℤ) :
    putRecord (some r) fields ts =
      if r.eventTs ≤ ts then some ⟨fields, ts⟩ else some r :=
  rfl

theorem putRecord_idem (o : Option OnlineRecord) (fields : DataRow) (ts : ℤ) :
    putRecord (putRecord o fields ts) fields ts = putRecord o fields ts := by
  cases o with
  | none => simp [putRecord_none, putRecord_some]
  | some r =>
      rw [putRecord_some]
      by_cases h : r.eventTs ≤ ts
      · rw [if_pos h, putRecord_some]
        simp
      · rw [if_neg h, putRecord_some, if_neg h]

theorem putRecord_ts_mono (fields : DataRow) (ts : ℤ) (r : OnlineRecord) :
    ∃ r2, putRecord (some r) fields ts = some r2 ∧ r.eventTs ≤ r2.eventTs := by
  rw [putRecord_some]
  by_cases h : r.eventTs ≤ ts
  · exact ⟨⟨fields, ts⟩, by rw [if_pos h], h⟩
  · exact ⟨r, by rw [if_neg h], le_refl _⟩

theorem put_ts_mono (s : OnlineStore) (v : String) (k : ℤ) (fields : DataRow)
    (ts : ℤ) (view : String) (key : ℤ) (r : OnlineRecord)
    (h : get s view key = some r) :
    ∃ r2, get (put s v k fields ts) view key = some r2 ∧
      r.eventTs ≤ r2.eventTs := by
  unfold get at h ⊢
  rw [put_apply]
  by_cases hq : ((view, key) : ViewKey) = (v, k)
  · rw [if_pos hq, ← hq, h]
    exact putRecord_ts_mono fields ts r
  · rw [if_neg hq]
    exact ⟨r, h, le_refl _⟩

theorem applyPuts_ts_mono (ops : List PutOp) :
    ∀ (s : OnlineStore) (view : String) (key : ℤ) (r : OnlineRecord),
      get s view key = some r →
        ∃ r2, get (applyPuts s ops) view key = some r2 ∧
          r.eventTs ≤ r2.eventTs := by
  induction ops with
  | nil => exact fun s view key r h => ⟨r, h, le_refl _⟩
  | cons op tl ih =>
      intro s view key r h
      obtain ⟨r1, h1, hle1⟩ :=
        put_ts_mono s op.view op.key op.fields op.ts view key r h
      obtain ⟨r2, h2, hle2⟩ := ih _ view key r1 h1
      exact ⟨r2, h2, le_trans hle1 hle2⟩

theorem foldPut_apply (l : List String) :
    ∀ (s : OnlineStore) (k : ℤ) (fields : DataRow) (ts : ℤ) (q : ViewKey),
      (l.foldl (fun st v => put st v k fields ts) s) q =
        if q.1 ∈ l ∧ q.2 = k then putRecord (s q) fields ts else s q := by
  induction l with
  | nil =>
      intro s k fields ts q
      simp
  | cons v tl ih =>
      intro s k fields ts q
      rw [List.foldl_cons, ih]
      by_cases hq : q = (v, k)
      · subst hq
        by_cases hv : v ∈ tl <;>
          simp [put_apply, putRecord_idem, hv]
      · by_cases hk : q.2 = k
        · by_cases hv : q.1 = v
          · exact absurd (Prod.ext_iff.mpr ⟨hv, hk⟩) hq
          · simp [put_apply, hq, hk, hv, List.mem_cons]
        · simp [put_apply, hq, hk]

/-! ### Claim theorems -/

/-- C1: point-in-time correctness of the offline join — no row kept as a
candidate, and in particular no row selected by the join, has an
event timestamp greater than the spine row's event timestamp. -/
theorem no_lookahead (ttl key spineTs : ℤ) (rows : List FeatureRow)
    (r : FeatureRow)
    (h : r ∈ candidateRows ttl key spineTs rows
      ∨ joinOne ttl key spineTs rows = some r) :
    r.eventTs ≤ spineTs := by
  rcases h with h | h
  · exact (mem_candidateRows.mp h).2.2.1
  · have hmem : r ∈ candidateRows ttl key spineTs rows := selectRow_mem h
    exact (mem_candidateRows.mp hmem).2.2.1

/-- Witness for C1 at a concrete spine row and feature row. -/
theorem no_lookahead_witness :
    ((⟨1, 50, 0, [1]⟩ : FeatureRow) ∈
        candidateRows 86400 1 100 [⟨1, 50, 0, [1]⟩]
      ∨ joinOne 86400 1 100 [⟨1, 50, 0, [1]⟩] = some ⟨1, 50, 0, [1]⟩)
    ∧ (⟨1, 50, 0, [1]⟩ : FeatureRow).eventTs ≤ 100 :=
  ⟨Or.inl (by decide),
   no_lookahead 86400 1 100 [⟨1, 50, 0, [1]⟩] ⟨1, 50, 0, [1]⟩
     (Or.inl (by decide))⟩

/-- C3: TTL boundary inclusivity — with TTL > 0, a matching row exactly at
`spine_timestamp − TTL` is kept as a candidate, while any row strictly
before that cutoff is discarded. -/
theorem ttl_boundary (ttl key spineTs : ℤ) (rows : List FeatureRow)
    (httl : 0 < ttl) :
    (∀ r ∈ rows, r.key = key → r.eventTs = spineTs - ttl →
        r ∈ candidateRows ttl key spineTs rows)
    ∧ ∀ r2 : FeatureRow, r2.eventTs < spineTs - ttl →
        r2 ∉ candidateRows ttl key spineTs rows := by
  constructor
  · intro r hr hk he
    exact mem_candidateRows.mpr ⟨hr, hk, by omega, fun _ => by omega⟩
  · intro r2 hlt hmem
    have := (mem_candidateRows.mp hmem).2.2.2 httl
    omega

/-- Witness for C3 at the one-day TTL of `driver_quality_stats`. -/
theorem ttl_boundary_witness :
    0 < driver_quality_fv.ttlSeconds
    ∧ ((∀ r ∈ [(⟨1, 13600, 0, [1]⟩ : FeatureRow)], r.key = 1 →
          r.eventTs = 100000 - driver_quality_fv.ttlSeconds →
            r ∈ candidateRows driver_quality_fv.ttlSeconds 1 100000
              [⟨1, 13600, 0, [1]⟩])
      ∧ ∀ r2 : FeatureRow,
          r2.eventTs < 100000 - driver_quality_fv.ttlSeconds →
            r2 ∉ candidateRows driver_quality_fv.ttlSeconds 1 100000
              [⟨1, 13600, 0, [1]⟩]) :=
  ⟨by decide,
   ttl_boundary driver_quality_fv.ttlSeconds 1 100000
     [⟨1, 13600, 0, [1]⟩] (by decide)⟩

/-- C4: tie-break determinism — the selected row has maximum event
timestamp, ties are broken by maximum created timestamp, and the selection
is invariant under every permutation of the candidate list. -/
theorem tie_break_determinism (rows : List FeatureRow) (r : FeatureRow)
    (h : selectRow rows = some r) :
    (∀ s ∈ rows, s.eventTs ≤ r.eventTs ∧
        (s.eventTs = r.eventTs → s.createdTs ≤ r.createdTs))
    ∧ ∀ rows2 : List FeatureRow, List.Perm rows rows2 →
        selectRow rows2 = some r := by
  constructor
  · intro s hs
    have hmax := selectRow_max h s hs
    exact ⟨rowLtB_false_eventTs hmax,
      fun he => rowLtB_false_createdTs hmax he⟩
  · intro rows2 hp
    rw [← selectRow_perm hp]
    exact h

/-- Witness for C4: two rows tied on event timestamp; the one with the
larger created timestamp wins. -/
theorem tie_break_determinism_witness :
    selectRow [⟨1, 5, 1, [7]⟩, ⟨1, 5, 2, [8]⟩] = some ⟨1, 5, 2, [8]⟩
    ∧ ((∀ s ∈ ([⟨1, 5, 1, [7]⟩, ⟨1, 5, 2, [8]⟩] : List FeatureRow),
          s.eventTs ≤ (⟨1, 5, 2, [8]⟩ : FeatureRow).eventTs ∧
            (s.eventTs = (⟨1, 5, 2, [8]⟩ : FeatureRow).eventTs →
              s.createdTs ≤ (⟨1, 5, 2, [8]⟩ : FeatureRow).createdTs))
      ∧ ∀ rows2 : List FeatureRow,
          List.Perm [⟨1, 5, 1, [7]⟩, ⟨1, 5, 2, [8]⟩] rows2 →
            selectRow rows2 = some ⟨1, 5, 2, [8]⟩) :=
  ⟨by decide,
   tie_break_determinism [⟨1, 5, 1, [7]⟩, ⟨1, 5, 2, [8]⟩] ⟨1, 5, 2, [8]⟩
     (by decide)⟩

/-- C5: monotonic-by-event-time online write — a `put` with a strictly
older event timestamp than the stored record leaves the store unchanged,
and the stored timestamp for a key never decreases across any sequence of
`put`s. -/
theorem monotonic_online_write (s : OnlineStore) (view : String) (key : ℤ)
    (fields : DataRow) (ts : ℤ) (r : OnlineRecord)
    (hstored : get s view key = some r) (holder : ts < r.eventTs) :
    put s view key fields ts = s
    ∧ get (put s view key fields ts) view key = some r
    ∧ ∀ ops : List PutOp, ∃ r2,
        get (applyPuts s ops) view key = some r2 ∧
          r.eventTs ≤ r2.eventTs := by
  have hget : s (view, key) = some r := hstored
  have hput : put s view key fields ts = s := by
    funext q
    rw [put_apply]
    by_cases hq : q = (view, key)
    · subst hq
      rw [if_pos rfl, hget, putRecord_some, if_neg (by omega)]
    · rw [if_neg hq]
  refine ⟨hput, ?_, fun ops => applyPuts_ts_mono ops s view key r hstored⟩
  rw [hput]
  exact hstored

/-- Witness for C5, mirroring the spec's scenario: a stored value written
at timestamp 5 survives a later `put` carrying timestamp 3. -/
theorem monotonic_online_write_witness :
    get (fun q => if q = (("driver_quality_stats", 1) : ViewKey) then
        some ⟨[("conv_rate", FValue.f32 9)], 5⟩ else none)
      "driver_quality_stats" 1 = some ⟨[("conv_rate", FValue.f32 9)], 5⟩
    ∧ ((3 : ℤ) < (⟨[("conv_rate", FValue.f32 9)], 5⟩ : OnlineRecord).eventTs
    ∧ (put (fun q => if q = (("driver_quality_stats", 1) : ViewKey) then
          some ⟨[("conv_rate", FValue.f32 9)], 5⟩ else none)
        "driver_quality_stats" 1 [("conv_rate", FValue.f32 1)] 3
        = fun q => if q = (("driver_quality_stats", 1) : ViewKey) then
            some ⟨[("conv_rate", FValue.f32 9)], 5⟩ else none)
    ∧ get (put (fun q => if q = (("driver_quality_stats", 1) : ViewKey) then
          some ⟨[("conv_rate", FValue.f32 9)], 5⟩ else none)
        "driver_quality_stats" 1 [("conv_rate", FValue.f32 1)] 3)
        "driver_quality_stats" 1
        = some ⟨[("conv_rate", FValue.f32 9)], 5⟩
    ∧ ∀ ops : List PutOp, ∃ r2,
        get (applyPuts (fun q =>
            if q = (("driver_quality_stats", 1) : ViewKey) then
              some ⟨[("conv_rate", FValue.f32 9)], 5⟩ else none) ops)
          "driver_quality_stats" 1 = some r2 ∧
          (⟨[("conv_rate", FValue.f32 9)], 5⟩ : OnlineRecord).eventTs
            ≤ r2.eventTs) :=
  ⟨by decide,
   by decide,
   monotonic_online_write _ "driver_quality_stats" 1
     [("conv_rate", FValue.f32 1)] 3 ⟨[("conv_rate", FValue.f32 9)], 5⟩
     (by decide) (by decide)⟩

/-- C6: idempotent push — pushing the identical row a second time leaves
the online-store state exactly as after the first push; and in the
repository, the push source is bound to exactly the two fresh feature
views. -/
theorem push_idempotent :
    (∀ (srcViews : List String) (hasBatchSink : Bool) (st : IngestState)
        (row : PushRow),
      (pushRow srcViews hasBatchSink (pushRow srcViews hasBatchSink st row)
          row).online
        = (pushRow srcViews hasBatchSink st row).online)
    ∧ boundViews driver_stats_push_source allFeatureViews
        = [driver_quality_fresh_fv.name, driver_activity_fresh_fv.name] := by
  constructor
  · intro srcViews hasBatchSink st row
    simp only [pushRow]
    funext q
    rw [foldPut_apply, foldPut_apply]
    by_cases hc : q.1 ∈ srcViews ∧ q.2 = row.key
    · rw [if_pos hc, if_pos hc, putRecord_idem]
    · rw [if_neg hc, if_neg hc]
  · decide

/-- C7: schema-exact on-demand output — whenever the three declared input
columns are present, the executor returns `ok` with exactly the declared
`efficiency_index` and `risk_score` Float64 columns; the
`SchemaViolationError` branch is never taken. -/
theorem on_demand_schema_exact (npLog : ℚ → ℚ) (inputs : DataRow)
    (c a t : FValue)
    (hc : getCol inputs "conv_rate" = some c)
    (ha : getCol inputs "acc_rate" = some a)
    (ht : getCol inputs "avg_daily_trips" = some t) :
    ∃ out,
      runOnDemand driver_efficiency_metrics_decl
          (driver_efficiency_metrics npLog) inputs = .ok out
      ∧ rowSchema out = declaredSchema driver_efficiency_metrics_decl
      ∧ out.map Prod.fst = ["efficiency_index", "risk_score"]
      ∧ runOnDemand driver_efficiency_metrics_decl
          (driver_efficiency_metrics npLog) inputs ≠ .schemaViolation := by
  have htrans : driver_efficiency_metrics npLog inputs
      = some [("efficiency_index", .f64 (c.toQ + t.toQ)),
              ("risk_score", .f64 (1 - a.toQ * npLog (1 + t.toQ)))] := by
    unfold driver_efficiency_metrics
    rw [hc, ha, ht]
  have hrun : runOnDemand driver_efficiency_metrics_decl
      (driver_efficiency_metrics npLog) inputs
      = .ok [("efficiency_index", .f64 (c.toQ + t.toQ)),
             ("risk_score", .f64 (1 - a.toQ * npLog (1 + t.toQ)))] := by
    unfold runOnDemand
    rw [htrans]
    exact if_pos rfl
  refine ⟨_, hrun, rfl, rfl, ?_⟩
  rw [hrun]
  simp

/-- Witness for C7 at a concrete input row. -/
theorem on_demand_schema_exact_witness :
    getCol [("conv_rate", FValue.f32 1), ("acc_rate", FValue.f32 2),
        ("avg_daily_trips", FValue.i64 3)] "conv_rate" = some (FValue.f32 1)
    ∧ (getCol [("conv_rate", FValue.f32 1), ("acc_rate", FValue.f32 2),
        ("avg_daily_trips", FValue.i64 3)] "acc_rate" = some (FValue.f32 2)
    ∧ (getCol [("conv_rate", FValue.f32 1), ("acc_rate", FValue.f32 2),
        ("avg_daily_trips", FValue.i64 3)] "avg_daily_trips"
          = some (FValue.i64 3)
    ∧ ∃ out,
        runOnDemand driver_efficiency_metrics_decl
            (driver_efficiency_metrics (fun _ => 0))
            [("conv_rate", FValue.f32 1), ("acc_rate", FValue.f32 2),
              ("avg_daily_trips", FValue.i64 3)] = .ok out
        ∧ rowSchema out = declaredSchema driver_efficiency_metrics_decl
        ∧ out.map Prod.fst = ["efficiency_index", "risk_score"]
        ∧ runOnDemand driver_efficiency_metrics_decl
            (driver_efficiency_metrics (fun _ => 0))
            [("conv_rate", FValue.f32 1), ("acc_rate", FValue.f32 2),
              ("avg_daily_trips", FValue.i64 3)] ≠ .schemaViolation)) :=
  ⟨by decide, by decide, by decide,
   on_demand_schema_exact (fun _ => 0)
     [("conv_rate", FValue.f32 1), ("acc_rate", FValue.f32 2),
       ("avg_daily_trips", FValue.i64 3)]
     (FValue.f32 1) (FValue.f32 2) (FValue.i64 3)
     (by decide) (by decide) (by decide)⟩

/-- C8: composer projection completeness — serving `driver_activity_v1`
projects exactly the columns `conv_rate`, `efficiency_index`, `risk_score`
in that order, and the assembled response carries exactly these columns. -/
theorem composer_projection_complete :
    serviceColumns driver_activity_v1
      = ["conv_rate", "efficiency_index", "risk_score"]
    ∧ ∀ vals : String → FValue,
        (composeResponse driver_activity_v1 vals).map Prod.fst
          = serviceColumns driver_activity_v1 := by
  refine ⟨by decide, fun vals => ?_⟩
  unfold composeResponse
  rw [List.map_map]
  exact List.map_id (serviceColumns driver_activity_v1)

/-- C9: noninterference — the transformation's output depends only on the
three declared input columns; two rows agreeing on them produce equal
outputs. -/
theorem on_demand_noninterference (npLog : ℚ → ℚ) (r1 r2 : DataRow)
    (hc : getCol r1 "conv_rate" = getCol r2 "conv_rate")
    (ha : getCol r1 "acc_rate" = getCol r2 "acc_rate")
    (ht : getCol r1 "avg_daily_trips" = getCol r2 "avg_daily_trips") :
    driver_efficiency_metrics npLog r1 = driver_efficiency_metrics npLog r2 := by
  unfold driver_efficiency_metrics
  rw [hc, ha, ht]

/-- Witness for C9: a row carrying an extra undeclared column produces the
same output as the row without it. -/
theorem on_demand_noninterference_witness :
    getCol [("extra", FValue.i64 99), ("conv_rate", FValue.f32 1),
        ("acc_rate", FValue.f32 2), ("avg_daily_trips", FValue.i64 3)]
        "conv_rate"
      = getCol [("conv_rate", FValue.f32 1), ("acc_rate", FValue.f32 2),
        ("avg_daily_trips", FValue.i64 3)] "conv_rate"
    ∧ (getCol [("extra", FValue.i64 99), ("conv_rate", FValue.f32 1),
        ("acc_rate", FValue.f32 2), ("avg_daily_trips", FValue.i64 3)]
        "acc_rate"
      = getCol [("conv_rate", FValue.f32 1), ("acc_rate", FValue.f32 2),
        ("avg_daily_trips", FValue.i64 3)] "acc_rate"
    ∧ (getCol [("extra", FValue.i64 99), ("conv_rate", FValue.f32 1),
        ("acc_rate", FValue.f32 2), ("avg_daily_trips", FValue.i64 3)]
        "avg_daily_trips"
      = getCol [("conv_rate", FValue.f32 1), ("acc_rate", FValue.f32 2),
        ("avg_daily_trips", FValue.i64 3)] "avg_daily_trips"
    ∧ driver_efficiency_metrics (fun _ => 0)
        [("extra", FValue.i64 99), ("conv_rate", FValue.f32 1),
          ("acc_rate", FValue.f32 2), ("avg_daily_trips", FValue.i64 3)]
      = driver_efficiency_metrics (fun _ => 0)
        [("conv_rate", FValue.f32 1), ("acc_rate", FValue.f32 2),
          ("avg_daily_trips", FValue.i64 3)])) :=
  ⟨by decide, by decide, by decide,
   on_demand_noninterference (fun _ => 0)
     [("extra", FValue.i64 99), ("conv_rate", FValue.f32 1),
       ("acc_rate", FValue.f32 2), ("avg_daily_trips", FValue.i64 3)]
     [("conv_rate", FValue.f32 1), ("acc_rate", FValue.f32 2),
       ("avg_daily_trips", FValue.i64 3)]
     (by decide) (by decide) (by decide)⟩

/-- C10: the fresh transformation is extensionally equal to the original
one, and the two on-demand views declare identical output schemas, so the
fresh service derives the same values from identical base inputs. -/
theorem fresh_transform_equivalence :
    (∀ (npLog : ℚ → ℚ) (inputs : DataRow),
      driver_efficiency_metrics npLog inputs
        = driver_efficiency_metrics_fresh npLog inputs)
    ∧ driver_efficiency_metrics_decl.schema
        = driver_efficiency_metrics_fresh_decl.schema :=
  ⟨fun _ _ => rfl, rfl⟩

/-- C2: offline/online equivalence — applying the transformation row-wise
over a table (offline path) yields, at every index, exactly the value the
online path produces for that row; determinism of repeated invocation is
definitional, the transformation being a pure function. -/
theorem offline_online_equivalence (npLog : ℚ → ℚ) (table : List DataRow)
    (i : ℕ) :
    (offlineApply (driver_efficiency_metrics npLog) table)[i]?
      = (table[i]?).map (onlineServe (driver_efficiency_metrics npLog)) := by
  unfold offlineApply onlineServe
  simp [List.getElem?_map]

end FeatureStore
